import Mathlib

/-!
Verification of the zeth rollup composition pipeline.

The development shallowly embeds the host orchestration code in
`host/src/operations/rollups.rs` (`derive_rollup_blocks`,
`compose_derived_rollup_blocks`) together with models of the components the
host drives: the derivation state machine, the Merkle Mountain Range
accumulator, and the four composition operations PREP / LIFT / JOIN / FINISH.
The components themselves live outside the excerpted sources, so their
definitions are modelled from the specification; the host-side control flow
(segmentation, replay check, chain extension, the FIFO join loop, receipt
gating) is translated directly from the source.
-/

namespace ZethModel

/-- Modelled from the spec: hashes are fixed-size digests, combined by a
domain hash-combine function.  The model uses a free term algebra for
digests, so distinct combinations yield distinct digests (an ideal,
collision-free hash). -/
inductive Digest where
  | raw : Nat → Digest
  | comb : Digest → Digest → Digest
deriving DecidableEq

/-- BlockRef: a (number, hash) pair identifying an L1 or L2 block
(spec section 3; `rollups.rs` uses pairs such as `output.eth_tail.0/.1`). -/
structure BlockRef where
  number : Nat
  hash : Digest
deriving DecidableEq

/-- An L1 header, reduced to the fields the host code reads: its block
`number` and its hash (`Header::hash()` is modelled as a stored field). -/
structure Header where
  number : Nat
  hash : Digest
deriving DecidableEq

/-- DeriveOutput (spec section 3; the fields printed by
`derive_rollup_blocks`): last L1 block consumed, L2 head before derivation,
and the ordered derived L2 block references. -/
structure DeriveOutput where
  eth_tail : BlockRef
  op_head : BlockRef
  derived_op_blocks : List BlockRef
deriving DecidableEq

/-! ## Merkle Mountain Range

Modelled from the spec (section 4.1): an append-only forest of perfect
binary peaks; appending cascades merges of equal-height rightmost peaks;
`root` bags the peaks right-to-left; a companion sibling map records, for
every combine, each child's sibling hash and side, so that proofs can later
be reconstructed by walking from a leaf upward. -/

/-- One sibling-map entry: (node, sibling hash, sibling-is-on-the-left).
The map is kept as a list with the newest entries first. -/
abbrev SibMap := List (Digest × Digest × Bool)

/-- Look up the newest entry recorded for a node hash. -/
def sibLookup (m : SibMap) (d : Digest) : Option (Digest × Bool) :=
  (m.find? (fun e => decide (e.1 = d))).map (fun e => e.2)

/-- The MMR state: peaks as (height, hash) pairs, head = rightmost (lowest)
peak, heights strictly increasing along the list. -/
structure MerkleMountainRange where
  peaks : List (Nat × Digest)
deriving DecidableEq

/-- Modelled from the spec: push a new peak at the right end and cascade
merges while the two rightmost peaks have equal height; every combine
records both children in the sibling map.  The older peak is the left
child. -/
def pushPeak : Nat × Digest → List (Nat × Digest) → SibMap →
    List (Nat × Digest) × SibMap
  | p, [], m => ([p], m)
  | p, (h2, l) :: rest, m =>
    if p.1 = h2 then
      pushPeak (h2 + 1, Digest.comb l p.2) rest
        ((p.2, l, true) :: (l, p.2, false) :: m)
    else (p :: (h2, l) :: rest, m)

/-- Modelled from the spec: `append_leaf` inserts the new leaf as the
rightmost element, cascading merges (the host always supplies the sibling
map, so the model threads it unconditionally). -/
def MerkleMountainRange.append_leaf (st : MerkleMountainRange) (leaf : Digest)
    (m : SibMap) : MerkleMountainRange × SibMap :=
  (⟨(pushPeak (0, leaf) st.peaks m).1⟩, (pushPeak (0, leaf) st.peaks m).2)

/-- Right-to-left bagging of the peaks; each bagging combine is recorded in
the sibling map, since peak-bagging also needs proof material. -/
def bagPeaks : Digest → List (Nat × Digest) → SibMap → Digest × SibMap
  | acc, [], m => (acc, m)
  | acc, (_, l) :: rest, m =>
    bagPeaks (Digest.comb l acc) rest ((acc, l, true) :: (l, acc, false) :: m)

/-- Modelled from the spec: `root` folds all current peaks into one
commitment, failing (none) when no leaves have been appended. -/
def MerkleMountainRange.root (st : MerkleMountainRange) (m : SibMap) :
    Option (Digest × SibMap) :=
  match st.peaks with
  | [] => none
  | (_, r) :: rest => some (bagPeaks r rest m)

/-- The MMR state and sibling map after appending a list of leaves in order
(the loop over `eth_chain` in `compose_derived_rollup_blocks`). -/
def buildMMR (leaves : List Digest) : MerkleMountainRange × SibMap :=
  leaves.foldl (fun sm leaf => sm.1.append_leaf leaf sm.2) (⟨[]⟩, [])

/-- The root committed after appending `leaves` and calling `root` once. -/
def rootOf (leaves : List Digest) : Option Digest :=
  match buildMMR leaves with
  | (st, m) => (st.root m).map (fun rm => rm.1)

/-- A membership proof: the leaf hash plus the ordered sibling hashes with
their sides, sufficient to recompute the root (spec section 3). -/
structure MerkleProof where
  leaf : Digest
  path : List (Digest × Bool)
deriving DecidableEq

/-- Walk the sibling map upward from a node, collecting (sibling, side)
pairs until no entry is found (the root).  Fuelled by the map size, since a
malformed map could loop. -/
def proofWalk (m : SibMap) : Nat → Digest → Option (List (Digest × Bool))
  | 0, _ => none
  | fuel + 1, d =>
    match sibLookup m d with
    | none => some []
    | some (s, sLeft) =>
      (proofWalk m fuel (if sLeft then Digest.comb s d else Digest.comb d s)).map
        (fun rest => (s, sLeft) :: rest)

/-- Modelled from the spec: `MerkleProof::new` walks the sibling map from
the leaf to the root; it fails if the leaf hash was never recorded. -/
def MerkleProof.new (m : SibMap) (leaf : Digest) : Option MerkleProof :=
  match sibLookup m leaf with
  | none => none
  | some _ => (proofWalk m (m.length + 1) leaf).map (fun path => ⟨leaf, path⟩)

/-- Recompute the root committed by a proof path, starting from the leaf. -/
def recomputeRoot (leaf : Digest) (path : List (Digest × Bool)) : Digest :=
  path.foldl
    (fun acc sb => if sb.2 then Digest.comb sb.1 acc else Digest.comb acc sb.1)
    leaf

/-- Modelled from the spec: verification recomputes the root from the leaf
and proof path and compares it with the expected root. -/
def MerkleProof.verify (p : MerkleProof) (root : Digest) : Bool :=
  decide (recomputeRoot p.leaf p.path = root)

/-! ## Composition operations

The guest-side `ComposeInput::process` is not part of the excerpt, so the
four operations are modelled from the specification (section 4.3) together
with the error taxonomy of section 7. -/

/-- The error taxonomy of spec section 7. -/
inductive ComposeErr where
  | DataUnavailable
  | MalformedInput
  | DeterminismViolation
  | ProofVerificationFailure
  | AdjacencyViolation
  | BackendFailure
deriving DecidableEq

/-- Composition outputs: a PREP commitment (root plus committed header
range) or an AGGREGATE spanning an L2 boundary (`op_head` to `op_tail`). -/
inductive ComposeOutputOperation where
  | PREP (eth_chain_root : Digest) (eth_head eth_tail : BlockRef)
  | AGGREGATE (op_head op_tail : BlockRef)
deriving DecidableEq

/-- Composition inputs, tagged by operation (spec section 3). -/
inductive ComposeInputOperation where
  | PREP (eth_blocks : List Header) (prior_prep : Option ComposeOutputOperation)
  | LIFT (derivation : DeriveOutput) (eth_tail_proof : MerkleProof)
  | JOIN (left right : ComposeOutputOperation)
  | FINISH (prep aggregate : ComposeOutputOperation)
deriving DecidableEq

/-- A ComposeInput as constructed by the host: program identities, the
operation payload, and the anchor MMR root of the full L1 range. -/
structure ComposeInput where
  derive_image_id : Nat
  compose_image_id : Nat
  operation : ComposeInputOperation
  eth_chain_merkle_root : Digest
deriving DecidableEq

def OP_DERIVE_ID : Nat := 1

def OP_COMPOSE_ID : Nat := 2

/-- Every ComposeInput built by `compose_derived_rollup_blocks` carries the
same image ids and the pipeline's anchor root. -/
def mkComposeInput (root : Digest) (op : ComposeInputOperation) : ComposeInput :=
  ⟨OP_DERIVE_ID, OP_COMPOSE_ID, op, root⟩

/-- Header sequence contiguity: consecutive block numbers differ by one. -/
def contiguousBy : List Header → Bool
  | [] => true
  | [_] => true
  | a :: b :: rest => decide (b.number = a.number + 1) && contiguousBy (b :: rest)

/-- The L2 tail boundary of a DeriveOutput: the last derived block, or the
head itself when nothing was derived. -/
def l2Tail (d : DeriveOutput) : BlockRef :=
  d.derived_op_blocks.getLastD d.op_head

/-- Modelled from the spec: PREP checks that the header sequence is
contiguous by block number (MalformedInput otherwise), builds the MMR over
the headers' hashes, and outputs the resulting root with the committed
range. -/
def prepOp (blocks : List Header) : Except ComposeErr ComposeOutputOperation :=
  if contiguousBy blocks then
    match blocks.head?, blocks.getLast?, rootOf (blocks.map Header.hash) with
    | some hd, some tl, some root =>
      .ok (.PREP root ⟨hd.number, hd.hash⟩ ⟨tl.number, tl.hash⟩)
    | _, _, _ => .error .MalformedInput
  else .error .MalformedInput

/-- Modelled from the spec: LIFT verifies that the supplied Merkle proof
proves membership of the DeriveOutput's `eth_tail` hash under the claimed
root, failing with ProofVerificationFailure otherwise; on success the
AGGREGATE copies the DeriveOutput's L2 boundary. -/
def liftOp (root : Digest) (d : DeriveOutput) (p : MerkleProof) :
    Except ComposeErr ComposeOutputOperation :=
  if decide (p.leaf = d.eth_tail.hash) && p.verify root then
    .ok (.AGGREGATE d.op_head (l2Tail d))
  else .error .ProofVerificationFailure

/-- Modelled from the spec: JOIN is valid only when `left.op_tail =
right.op_head`; the output spans `left.op_head` to `right.op_tail`; any
boundary mismatch refuses to combine. -/
def joinOp : ComposeOutputOperation → ComposeOutputOperation →
    Except ComposeErr ComposeOutputOperation
  | .AGGREGATE lh lt, .AGGREGATE rh rt =>
    if lt = rh then .ok (.AGGREGATE lh rt) else .error .AdjacencyViolation
  | _, _ => .error .MalformedInput

/-- Modelled from the spec: FINISH takes one PREP output and one AGGREGATE
output and binds the aggregate's range to the prep commitment. -/
def finishOp : ComposeOutputOperation → ComposeOutputOperation →
    Except ComposeErr ComposeOutputOperation
  | .PREP _ _ _, .AGGREGATE h t => .ok (.AGGREGATE h t)
  | _, _ => .error .MalformedInput

/-- Modelled from the spec: dispatch of `ComposeInput::process`. -/
def processOp (inp : ComposeInput) : Except ComposeErr ComposeOutputOperation :=
  match inp.operation with
  | .PREP blocks _ => prepOp blocks
  | .LIFT d p => liftOp inp.eth_chain_merkle_root d p
  | .JOIN l r => joinOp l r
  | .FINISH prep agg => finishOp prep agg

/-! ## Claims C3, C4, C5 -/

/-- C3: for every pair of AGGREGATE outputs, JOIN succeeds iff
`left.op_tail = right.op_head`; on success the output is an AGGREGATE with
`op_head` from the left and `op_tail` from the right; on any boundary
mismatch JOIN fails rather than combining. -/
theorem claim_C3_join_adjacency (lh lt rh rt : BlockRef) :
    ((∃ out, joinOp (.AGGREGATE lh lt) (.AGGREGATE rh rt) = .ok out) ↔ lt = rh) ∧
    (lt = rh →
      joinOp (.AGGREGATE lh lt) (.AGGREGATE rh rt) = .ok (.AGGREGATE lh rt)) ∧
    (lt ≠ rh →
      joinOp (.AGGREGATE lh lt) (.AGGREGATE rh rt) = .error .AdjacencyViolation) := by
  refine ⟨⟨fun hex => ?_, fun h => ?_⟩, fun h => by simp [joinOp, h], fun h => by simp [joinOp, h]⟩
  · obtain ⟨out, hout⟩ := hex
    by_contra hne
    simp [joinOp, hne] at hout
  · exact ⟨.AGGREGATE lh rt, by simp [joinOp, h]⟩

/-- Witness for C3 at a concrete adjacent pair. -/
theorem claim_C3_witness :
    joinOp (.AGGREGATE ⟨1, .raw 1⟩ ⟨2, .raw 2⟩) (.AGGREGATE ⟨2, .raw 2⟩ ⟨3, .raw 3⟩) =
      .ok (.AGGREGATE ⟨1, .raw 1⟩ ⟨3, .raw 3⟩) :=
  (claim_C3_join_adjacency ⟨1, .raw 1⟩ ⟨2, .raw 2⟩ ⟨2, .raw 2⟩ ⟨3, .raw 3⟩).2.1 rfl

/-- C4: for every L1 header list that is not contiguous by block number,
PREP fails with MalformedInput (and hence never produces an MMR root),
whatever the prior-prep payload and anchor root. -/
theorem claim_C4_prep_contiguity (blocks : List Header)
    (prior : Option ComposeOutputOperation) (root : Digest)
    (h : contiguousBy blocks = false) :
    processOp (mkComposeInput root (.PREP blocks prior)) = .error .MalformedInput := by
  simp [processOp, mkComposeInput, prepOp, h]

/-- Witness for C4: a two-header list with a missing block number. -/
theorem claim_C4_witness :
    processOp (mkComposeInput (.raw 0)
      (.PREP [⟨1, .raw 1⟩, ⟨3, .raw 3⟩] none)) = .error .MalformedInput :=
  claim_C4_prep_contiguity [⟨1, .raw 1⟩, ⟨3, .raw 3⟩] none (.raw 0) (by decide)

/-- C5: LIFT fails with ProofVerificationFailure whenever its Merkle proof
does not verify against the supplied root, and also whenever the proof is
for a leaf hash other than the DeriveOutput's `eth_tail` hash; on success
the AGGREGATE output copies `op_head`/`op_tail` from the DeriveOutput's L2
boundary. -/
theorem claim_C5_lift_verification (root : Digest) (d : DeriveOutput)
    (p : MerkleProof) :
    (p.verify root = false → liftOp root d p = .error .ProofVerificationFailure) ∧
    (p.leaf ≠ d.eth_tail.hash → liftOp root d p = .error .ProofVerificationFailure) ∧
    (∀ out, liftOp root d p = .ok out → out = .AGGREGATE d.op_head (l2Tail d)) := by
  refine ⟨fun h => by simp [liftOp, h], fun h => by simp [liftOp, h], fun out hout => ?_⟩
  by_cases hleaf : p.leaf = d.eth_tail.hash
  · by_cases hver : p.verify root = true
    · exact (by simpa [liftOp, hleaf, hver] using hout : _ = out).symm
    · simp [liftOp, Bool.eq_false_iff.mpr hver] at hout
  · simp [liftOp, hleaf] at hout

/-- Witness for C5: a proof for a different leaf than the eth tail fails. -/
theorem claim_C5_witness :
    liftOp (.raw 0)
      ⟨⟨2, .raw 2⟩, ⟨10, .raw 10⟩, [⟨11, .raw 11⟩]⟩
      ⟨.raw 7, []⟩ = .error .ProofVerificationFailure :=
  (claim_C5_lift_verification (.raw 0)
      ⟨⟨2, .raw 2⟩, ⟨10, .raw 10⟩, [⟨11, .raw 11⟩]⟩ ⟨.raw 7, []⟩).2.1 (by decide)

/-! ## Host segmentation of the composition window (C9)

`compose_derived_rollup_blocks` iterates `(0..block_count).step_by(composition_size)`;
each iteration derives one segment of `composition_size` L2 blocks whose head is
`block_number + op_block_index`, fetching op blocks starting at head + 1. -/

/-- The indices produced by `(0..block_count).step_by(composition_size)`:
the multiples of the step below the bound, in increasing order. -/
def stepByIndices (block_count composition_size : Nat) : List Nat :=
  (List.range block_count).filter (fun i => decide (i % composition_size = 0))

/-- The L2 block numbers fetched by `fetch_op_blocks(block_number, block_count)`:
`block_number + i` for `i` in `0..block_count`. -/
def fetchOpBlockNumbers (block_number block_count : Nat) : List Nat :=
  (List.range block_count).map (fun i => block_number + i)

/-- The derivation parameters of one segment, as assembled into a
`DeriveInput` by `compose_derived_rollup_blocks`. -/
structure SegmentSpec where
  op_head_block_no : Nat
  op_derive_block_count : Nat
  fetched_op_blocks : List Nat
deriving DecidableEq

/-- The per-segment derive inputs of one composition run: for each step
index, the segment head is `block_number + idx`, the derive count is the
composition size, and the fetched op blocks start at head + 1. -/
def segmentsOf (block_number block_count composition_size : Nat) : List SegmentSpec :=
  (stepByIndices block_count composition_size).map (fun idx =>
    { op_head_block_no := block_number + idx
      op_derive_block_count := composition_size
      fetched_op_blocks :=
        fetchOpBlockNumbers (block_number + idx + 1) composition_size })

theorem ceil_div_succ (bc cs : Nat) (h : 0 < cs) :
    (bc + 1 + cs - 1) / cs = bc / cs + 1 := by
  have : bc + 1 + cs - 1 = bc + cs := by omega
  rw [this, Nat.add_div_right _ h]

theorem ceil_div_of_dvd (bc cs : Nat) (h : 0 < cs) (hd : cs ∣ bc) :
    (bc + cs - 1) / cs = bc / cs := by
  obtain ⟨q, rfl⟩ := hd
  have h1 : cs * q + cs - 1 = cs * q + (cs - 1) := by omega
  rw [h1, Nat.mul_add_div h, Nat.div_eq_of_lt (by omega), Nat.mul_div_cancel_left _ h]
  omega

theorem ceil_div_of_not_dvd (bc cs : Nat) (h : 0 < cs) (hd : ¬ cs ∣ bc) :
    (bc + cs - 1) / cs = bc / cs + 1 := by
  have hmod : bc % cs ≠ 0 := fun hc => hd (Nat.dvd_of_mod_eq_zero hc)
  have hlt : bc % cs < cs := Nat.mod_lt _ h
  have hsplit : cs * (bc / cs) + bc % cs = bc := Nat.div_add_mod bc cs
  have h1 : bc + cs - 1 = cs * (bc / cs) + (bc % cs + cs - 1) := by omega
  rw [h1, Nat.mul_add_div h]
  have h2 : (bc % cs + cs - 1) / cs = 1 := by
    apply Nat.div_eq_of_lt_le <;> omega
  omega

/-- The step-by iteration enumerates `k * composition_size` for
`k` below the ceiling of `block_count / composition_size`. -/
theorem stepByIndices_eq (cs : Nat) (h : 0 < cs) :
    ∀ bc, stepByIndices bc cs =
      (List.range ((bc + cs - 1) / cs)).map (fun k => k * cs) := by
  intro bc
  induction bc with
  | zero =>
    have h0 : (cs - 1) / cs = 0 := Nat.div_eq_of_lt (by omega)
    simp [stepByIndices, h0]
  | succ bc ih =>
    rw [stepByIndices, List.range_succ, List.filter_append, ← stepByIndices, ih,
      ceil_div_succ bc cs h]
    by_cases hd : cs ∣ bc
    · have hmod : bc % cs = 0 := by
        obtain ⟨q, rfl⟩ := hd
        exact Nat.mul_mod_right cs q
      have hbc : bc / cs * cs = bc := Nat.div_mul_cancel hd
      rw [ceil_div_of_dvd bc cs h hd, List.range_succ, List.map_append]
      simp [hmod, hbc]
    · have hmod : bc % cs ≠ 0 := fun hc => hd (Nat.dvd_of_mod_eq_zero hc)
      rw [ceil_div_of_not_dvd bc cs h hd]
      simp [hmod]

/-- C9: with composition size `cs > 0`, the window is cut into
`ceil(block_count / cs)` segments; the k-th segment's L2 head is
`block_number + k * cs`; every segment derives exactly `cs` blocks starting
at its head + 1; and when `cs` does not divide `block_count` the final
segment extends past the requested window instead of being truncated. -/
theorem claim_C9_segmentation (bn bc cs : Nat) (hcs : 0 < cs) :
    (segmentsOf bn bc cs).length = (bc + cs - 1) / cs ∧
    (∀ (k : Nat) (hk : k < (segmentsOf bn bc cs).length),
      ((segmentsOf bn bc cs)[k]).op_head_block_no = bn + k * cs ∧
      ((segmentsOf bn bc cs)[k]).op_derive_block_count = cs ∧
      ((segmentsOf bn bc cs)[k]).fetched_op_blocks =
        (List.range cs).map (fun i => bn + k * cs + 1 + i)) ∧
    (¬ cs ∣ bc →
      ∀ (hk : (bc + cs - 1) / cs - 1 < (segmentsOf bn bc cs).length),
        bn + bc <
          ((segmentsOf bn bc cs)[(bc + cs - 1) / cs - 1]).op_head_block_no + cs) := by
  have hseg : segmentsOf bn bc cs =
      (List.range ((bc + cs - 1) / cs)).map (fun k =>
        { op_head_block_no := bn + k * cs
          op_derive_block_count := cs
          fetched_op_blocks :=
            fetchOpBlockNumbers (bn + k * cs + 1) cs }) := by
    rw [segmentsOf, stepByIndices_eq cs hcs bc, List.map_map]
    rfl
  refine ⟨by rw [hseg]; simp, fun k hk => ?_, fun hd hk => ?_⟩
  · simp [hseg, fetchOpBlockNumbers]
  · have hceil : (bc + cs - 1) / cs = bc / cs + 1 := ceil_div_of_not_dvd bc cs hcs hd
    have hmod : bc % cs ≠ 0 := fun hc => hd (Nat.dvd_of_mod_eq_zero hc)
    have hlt : bc % cs < cs := Nat.mod_lt _ hcs
    have hsplit : cs * (bc / cs) + bc % cs = bc := Nat.div_add_mod bc cs
    simp only [hseg, List.getElem_map, List.getElem_range]
    rw [hceil]
    have h2 : (bc / cs + 1 - 1) * cs = cs * (bc / cs) := by
      simp [Nat.mul_comm]
    rw [h2]
    omega

/-- Witness for C9 at `block_number = 100`, `block_count = 5`,
`composition_size = 2`: three segments whose heads are 100, 102, 104, the
last overshooting the window. -/
theorem claim_C9_witness :
    (segmentsOf 100 5 2).length = 3 ∧
    ((segmentsOf 100 5 2).getD 2 ⟨0, 0, []⟩).op_head_block_no = 100 + 2 * 2 :=
  ⟨(claim_C9_segmentation 100 5 2 (by decide)).1, by decide⟩

/-! ## Host extension of the global eth chain (C10)

Lines 255-265 of `rollups.rs`: each segment's fetched L1 chain is folded
into the global `eth_chain`, appending a header only when its number
exceeds the current tail's number (0 for the empty chain). -/

/-- The tail block number used by the extension check: the last header's
number, or 0 when the chain is empty. -/
def tailNumOf (acc : List Header) : Nat :=
  match acc.getLast? with
  | none => 0
  | some t => t.number

/-- One iteration of the chain-extension loop. -/
def extendStep (acc : List Header) (block : Header) : List Header :=
  if tailNumOf acc < block.number then acc ++ [block] else acc

/-- The chain-extension loop over one segment's fetched L1 chain. -/
def extendEthChain (ethChain chain : List Header) : List Header :=
  chain.foldl extendStep ethChain

theorem extendStep_chain' (acc : List Header) (b : Header)
    (h : List.Chain' (fun a b => a.number < b.number) acc) :
    List.Chain' (fun a b => a.number < b.number) (extendStep acc b) := by
  unfold extendStep
  split
  · next hlt =>
    rw [List.chain'_append]
    refine ⟨h, List.chain'_singleton _, fun x hx y hy => ?_⟩
    simp only [List.head?_cons, Option.mem_def, Option.some.injEq] at hy
    subst hy
    have : tailNumOf acc = x.number := by
      unfold tailNumOf
      rw [hx]
    omega
  · exact h

/-- C10: the per-segment extension appends a header only when its number
exceeds the current tail's (dropping overlapping headers), preserves the
strictly-increasing-numbers invariant of `eth_chain`, and performs no
gap-of-one check: a header jumping the tail number by more than one is
accepted, leaving a non-unit gap. -/
theorem claim_C10_eth_chain_extension :
    (∀ (acc : List Header) (b : Header),
      b.number ≤ tailNumOf acc → extendStep acc b = acc) ∧
    (∀ (ethChain chain : List Header),
      List.Chain' (fun a b => a.number < b.number) ethChain →
      List.Chain' (fun a b => a.number < b.number) (extendEthChain ethChain chain)) ∧
    (extendEthChain [⟨1, .raw 1⟩] [⟨3, .raw 3⟩]).map Header.number = [1, 3] := by
  refine ⟨fun acc b hle => ?_, fun ethChain chain => ?_, by decide⟩
  · unfold extendStep
    rw [if_neg (by omega)]
  · intro h
    induction chain generalizing ethChain with
    | nil => exact h
    | cons b rest ih => exact ih _ (extendStep_chain' _ _ h)

/-- Witness for C10: a header at or below the tail number is dropped. -/
theorem claim_C10_witness :
    extendStep [⟨5, .raw 5⟩] ⟨3, .raw 3⟩ = [⟨5, .raw 5⟩] :=
  claim_C10_eth_chain_extension.1 [⟨5, .raw 5⟩] ⟨3, .raw 3⟩ (by decide)

/-! ## Derivation determinism and the replay check (C1)

`DeriveMachine::derive` is outside the excerpt; the spec describes it as a
deterministic, strictly sequential consumer of records fetched on demand
from the chain data source.  It is modelled as a step function that either
finishes, aborts, or requests one numbered record and continues from a
state computed from the returned value.  The host control flow around it
(lines 90-123 and 191-241 of `rollups.rs`) runs the machine live, captures
the touched records (`get_mem_db`), re-runs against the captured subset and
asserts equality of the two outputs. -/

/-- Modelled from the spec: one step of the derivation state machine. -/
inductive DeriveStep (σ V O : Type) where
  | done (out : O)
  | fail
  | read (key : Nat) (next : V → σ)

/-- Modelled from the spec: run the derivation machine against a data
source, collecting the exact records touched, in order.  Fuelled, since the
step function is arbitrary. -/
def runDerive {σ V O : Type} (prog : σ → DeriveStep σ V O) (db : Nat → Option V) :
    Nat → σ → Option (O × List (Nat × V))
  | 0, _ => none
  | fuel + 1, s =>
    match prog s with
    | .done o => some (o, [])
    | .fail => none
    | .read key next =>
      match db key with
      | none => none
      | some v =>
        match runDerive prog db fuel (next v) with
        | none => none
        | some (o, t) => some (o, (key, v) :: t)

/-- The memory-backed replay source (`RpcDb::get_mem_db`): serves exactly
the records a previous run touched and nothing else. -/
def memDbOf {V : Type} (touched : List (Nat × V)) : Nat → Option V :=
  fun k => (touched.find? (fun e => decide (e.1 = k))).map (fun e => e.2)

/-- The host replay check (`assert_eq!(output, output_mem)`): any mismatch
between the live output and the replayed output is fatal. -/
def replayCheck {O : Type} [DecidableEq O] (live mem : O) : Except ComposeErr O :=
  if live = mem then .ok live else .error .DeterminismViolation

/-- The per-segment pipeline step: derive live, capture the touched-record
subset, re-derive from memory, and apply the replay check. -/
def derivePipeline {σ V O : Type} [DecidableEq O] (prog : σ → DeriveStep σ V O)
    (db : Nat → Option V) (fuel : Nat) (s : σ) : Except ComposeErr O :=
  match runDerive prog db fuel s with
  | none => .error .DataUnavailable
  | some (o, t) =>
    match runDerive prog (memDbOf t) fuel s with
    | none => .error .DeterminismViolation
    | some (o2, _) => replayCheck o o2

theorem runDerive_touched {σ V O : Type} (prog : σ → DeriveStep σ V O)
    (db : Nat → Option V) :
    ∀ (fuel : Nat) (s : σ) (o : O) (t : List (Nat × V)),
      runDerive prog db fuel s = some (o, t) → ∀ kv ∈ t, db kv.1 = some kv.2 := by
  intro fuel
  induction fuel with
  | zero => intro s o t h; simp [runDerive] at h
  | succ fuel ih =>
    intro s o t h kv hkv
    rw [runDerive] at h
    match hp : prog s with
    | .done o2 =>
      simp only [hp, Option.some.injEq, Prod.mk.injEq] at h
      rw [← h.2] at hkv
      simp at hkv
    | .fail => simp only [hp] at h; exact Option.noConfusion h
    | .read key next =>
      simp only [hp] at h
      match hdb : db key with
      | none => simp only [hdb] at h; exact Option.noConfusion h
      | some v =>
        simp only [hdb] at h
        match hrec : runDerive prog db fuel (next v) with
        | none => simp only [hrec] at h; exact Option.noConfusion h
        | some (o2, t2) =>
          simp only [hrec, Option.some.injEq, Prod.mk.injEq] at h
          rw [← h.2] at hkv
          rcases List.mem_cons.mp hkv with hkv | hkv
          · rw [hkv]; exact hdb
          · exact ih _ _ _ hrec kv hkv

theorem runDerive_agree {σ V O : Type} (prog : σ → DeriveStep σ V O)
    (db db2 : Nat → Option V) :
    ∀ (fuel : Nat) (s : σ) (o : O) (t : List (Nat × V)),
      runDerive prog db fuel s = some (o, t) →
      (∀ kv ∈ t, db2 kv.1 = some kv.2) →
      runDerive prog db2 fuel s = some (o, t) := by
  intro fuel
  induction fuel with
  | zero => intro s o t h; simp [runDerive] at h
  | succ fuel ih =>
    intro s o t h hagree
    rw [runDerive] at h ⊢
    match hp : prog s with
    | .done o2 => simp only [hp] at h ⊢; exact h
    | .fail => simp only [hp] at h; exact Option.noConfusion h
    | .read key next =>
      simp only [hp] at h ⊢
      match hdb : db key with
      | none => simp only [hdb] at h; exact Option.noConfusion h
      | some v =>
        simp only [hdb] at h
        match hrec : runDerive prog db fuel (next v) with
        | none => simp only [hrec] at h; exact Option.noConfusion h
        | some (o2, t2) =>
          simp only [hrec, Option.some.injEq, Prod.mk.injEq] at h
          have ht : t = (key, v) :: t2 := h.2.symm
          have hdb2 : db2 key = some v := by
            have := hagree (key, v) (by rw [ht]; exact List.mem_cons_self _ _)
            simpa using this
          have hrec2 : runDerive prog db2 fuel (next v) = some (o2, t2) :=
            ih _ _ _ hrec (fun kv hkv => hagree kv (by rw [ht]; exact List.mem_cons_of_mem _ hkv))
          simp [hdb2, hrec2, h.1, ht]

theorem memDbOf_serves {σ V O : Type} (prog : σ → DeriveStep σ V O)
    (db : Nat → Option V) (fuel : Nat) (s : σ) (o : O) (t : List (Nat × V))
    (h : runDerive prog db fuel s = some (o, t)) :
    ∀ kv ∈ t, memDbOf t kv.1 = some kv.2 := by
  intro kv hkv
  have hvals := runDerive_touched prog db fuel s o t h
  have hsome : (t.find? (fun e => decide (e.1 = kv.1))).isSome := by
    rw [List.find?_isSome]
    exact ⟨kv, hkv, by simp⟩
  obtain ⟨e, he⟩ := Option.isSome_iff_exists.mp hsome
  have hmem : e ∈ t := List.mem_of_find?_eq_some he
  have hkey : e.1 = kv.1 := by
    have := List.find?_some he
    simpa using this
  have h1 : db e.1 = some e.2 := hvals e hmem
  have h2 : db kv.1 = some kv.2 := hvals kv hkv
  rw [hkey] at h1
  rw [h2] at h1
  simp only [Option.some.injEq] at h1
  unfold memDbOf
  rw [he]
  simp [h1]

/-- C1: for a fixed derive input, a live run and a replay against exactly
the records the live run touched produce identical outputs; the embedded
pipeline performs this replay and succeeds, and its check rejects any
mismatch as a fatal DeterminismViolation. -/
theorem claim_C1_replay_determinism {σ V O : Type} [DecidableEq O]
    (prog : σ → DeriveStep σ V O) (db : Nat → Option V) (fuel : Nat) (s : σ)
    (o : O) (t : List (Nat × V))
    (hlive : runDerive prog db fuel s = some (o, t)) :
    runDerive prog (memDbOf t) fuel s = some (o, t) ∧
    derivePipeline prog db fuel s = .ok o ∧
    (∀ a b : O, a ≠ b → replayCheck a b = .error .DeterminismViolation) := by
  have hmem : runDerive prog (memDbOf t) fuel s = some (o, t) :=
    runDerive_agree prog db (memDbOf t) fuel s o t hlive
      (memDbOf_serves prog db fuel s o t hlive)
  refine ⟨hmem, ?_, fun a b hab => by simp [replayCheck, hab]⟩
  simp [derivePipeline, hlive, hmem, replayCheck]

/-- A two-state sample derivation program: read record 5, then finish. -/
def sampleDeriveProg : Nat → DeriveStep Nat Nat Nat := fun s =>
  if s = 0 then .read 5 (fun v => v + 1) else .done 42

/-- A sample live data source serving every record. -/
def sampleDb : Nat → Option Nat := fun k => some (k * 2)

/-- Witness for C1: the sample program's live run touches record 5 and the
replay against just that record reproduces the output. -/
theorem claim_C1_witness :
    runDerive sampleDeriveProg (memDbOf [(5, 10)]) 2 0 = some (42, [(5, 10)]) ∧
    derivePipeline sampleDeriveProg sampleDb 2 0 = .ok 42 ∧
    (∀ a b : Nat, a ≠ b → replayCheck a b = .error .DeterminismViolation) :=
  claim_C1_replay_determinism sampleDeriveProg sampleDb 2 0 42 [(5, 10)] rfl

/-! ## The FIFO join-loop (C2)

Lines 340-399 of `rollups.rs`: while more than one item remains, pop the
front as `left`, peek the new front as `right`; if `left.op_tail` differs
from `right.op_head`, push `left` back on the tail; otherwise pop `right`,
JOIN the pair through `process()`, and push the result on the tail.  The
single remaining item is fed into FINISH. -/

/-- The join loop, projected onto composition outputs.  Fuelled, since the
Rust while-loop has no structural measure; a non-AGGREGATE queue entry is
the source's `panic!`, modelled as `none`. -/
def runJoinLoop (root : Digest) :
    Nat → List ComposeOutputOperation → Option ComposeOutputOperation
  | _, [] => none
  | _, [x] => some x
  | 0, _ :: _ :: _ => none
  | fuel + 1, l :: r :: rest =>
    match l, r with
    | .AGGREGATE lh lt, .AGGREGATE rh rt =>
      if lt = rh then
        match processOp (mkComposeInput root
            (.JOIN (.AGGREGATE lh lt) (.AGGREGATE rh rt))) with
        | .ok out => runJoinLoop root fuel (rest ++ [out])
        | .error _ => none
      else runJoinLoop root fuel (.AGGREGATE rh rt :: rest ++ [.AGGREGATE lh lt])
    | _, _ => none

/-- The loop result is passed into the FINISH compose input
(lines 401-411 of `rollups.rs`). -/
def reduceAndFinish (root : Digest) (prep : ComposeOutputOperation) (fuel : Nat)
    (q : List ComposeOutputOperation) : Option ComposeInput :=
  (runJoinLoop root fuel q).map (fun agg => mkComposeInput root (.FINISH prep agg))

/-- The contiguous AGGREGATE segments determined by a list of cut
boundaries, in chain order: one aggregate per adjacent pair of cuts. -/
def chainOf : List BlockRef → List ComposeOutputOperation
  | a :: b :: rest => .AGGREGATE a b :: chainOf (b :: rest)
  | _ => []

theorem runJoinLoop_single (root : Digest) (fuel : Nat)
    (x : ComposeOutputOperation) : runJoinLoop root fuel [x] = some x := by
  cases fuel <;> rfl

theorem runJoinLoop_join (root : Digest) (fuel : Nat) (lh lt rt : BlockRef)
    (rest : List ComposeOutputOperation) :
    runJoinLoop root (fuel + 1) (.AGGREGATE lh lt :: .AGGREGATE lt rt :: rest) =
      runJoinLoop root fuel (rest ++ [.AGGREGATE lh rt]) := by
  simp [runJoinLoop, processOp, mkComposeInput, joinOp]

theorem runJoinLoop_miss (root : Digest) (fuel : Nat) (lh lt rh rt : BlockRef)
    (rest : List ComposeOutputOperation) (h : lt ≠ rh) :
    runJoinLoop root (fuel + 1) (.AGGREGATE lh lt :: .AGGREGATE rh rt :: rest) =
      runJoinLoop root fuel (.AGGREGATE rh rt :: rest ++ [.AGGREGATE lh lt]) := by
  simp [runJoinLoop, h]

theorem getLastD_nil {α : Type} (d : α) : List.getLastD [] d = d := rfl

theorem getLastD_one {α : Type} (a d : α) : List.getLastD [a] d = a := rfl

theorem getLastD_cons_eq {α : Type} (a d : α) (l : List α) :
    List.getLastD (a :: l) d = List.getLastD l a := by
  cases l <;> simp [List.getLastD]

theorem chainOf_nil : chainOf [] = [] := rfl

theorem chainOf_one (a : BlockRef) : chainOf [a] = [] := rfl

theorem chainOf_cons2 (a b : BlockRef) (l : List BlockRef) :
    chainOf (a :: b :: l) = .AGGREGATE a b :: chainOf (b :: l) := rfl

theorem getLastD_append_one {α : Type} (l : List α) (a d : α) :
    List.getLastD (l ++ [a]) d = a := by
  induction l generalizing d with
  | nil => rfl
  | cons b l ih => rw [List.cons_append, getLastD_cons_eq, ih]

theorem append_single_eq_cons {α : Type} (l : List α) (a : α) :
    ∃ h t, l ++ [a] = h :: t ∧ List.getLastD t h = a ∧ t.length = l.length := by
  cases l with
  | nil => exact ⟨a, [], rfl, rfl, rfl⟩
  | cons b l2 => exact ⟨b, l2 ++ [a], rfl, getLastD_append_one l2 a b, by simp⟩

theorem nodup_remove_mid {α : Type} (x0 : α) (l1 : List α) (y : α) (l2 : List α)
    (h : (x0 :: (l1 ++ y :: l2)).Nodup) : (x0 :: (l1 ++ l2)).Nodup := by
  refine List.Nodup.sublist ?_ h
  exact List.Sublist.cons₂ x0 (List.Sublist.append_left (List.sublist_cons_self _ _) l1)

theorem chainOf_append_last (x0 : BlockRef) (xs : List BlockRef) (v : BlockRef) :
    chainOf ((x0 :: xs) ++ [v]) =
      chainOf (x0 :: xs) ++ [.AGGREGATE (xs.getLastD x0) v] := by
  induction xs generalizing x0 with
  | nil => rfl
  | cons b rest ih =>
    calc chainOf ((x0 :: b :: rest) ++ [v]) =
        .AGGREGATE x0 b :: chainOf ((b :: rest) ++ [v]) := rfl
      _ = .AGGREGATE x0 b ::
          (chainOf (b :: rest) ++ [.AGGREGATE (rest.getLastD b) v]) := by rw [ih b]
      _ = chainOf (x0 :: b :: rest) ++ [.AGGREGATE ((b :: rest).getLastD x0) v] := by
          rw [getLastD_cons_eq]
          rfl

/-- The rotated-chain invariant of the join loop: if the queue is a rotation
of a contiguous chain with pairwise-distinct cut boundaries — `x0 :: xtl`
the cuts already moved behind the rotation point, `y1 :: ytl` the cuts still
ahead of it — then with fuel twice the segment count the loop ends with the
single aggregate spanning the whole chain. -/
theorem joinLoop_rotated (s : Nat) : ∀ (x0 : BlockRef) (xtl : List BlockRef)
    (y1 : BlockRef) (ytl : List BlockRef) (root : Digest) (fuel : Nat),
    ((x0 :: xtl) ++ (y1 :: ytl)).Nodup →
    xtl.length + 1 + ytl.length = s →
    2 * s ≤ fuel →
    runJoinLoop root fuel
      (chainOf (xtl.getLastD x0 :: y1 :: ytl) ++ chainOf (x0 :: xtl)) =
      some (.AGGREGATE x0 (ytl.getLastD y1)) := by
  induction s with
  | zero => intro x0 xtl y1 ytl root fuel hnd hlen hfuel; omega
  | succ s ih =>
    intro x0 xtl y1 ytl root fuel hnd hlen hfuel
    match ytl with
    | [] =>
      match xtl with
      | [] =>
        simp only [getLastD_nil, chainOf_cons2, chainOf_one, List.append_nil]
        exact runJoinLoop_single root fuel (.AGGREGATE x0 y1)
      | xh :: xtt =>
        obtain ⟨f, rfl⟩ : ∃ f, fuel = f + 1 := ⟨fuel - 1, by omega⟩
        have hx0y1 : y1 ≠ x0 := by
          have hdisj := List.disjoint_of_nodup_append hnd
          intro h
          exact hdisj (List.mem_cons_self _ _) (by simp [h])
        have hq : chainOf ((xh :: xtt).getLastD x0 :: y1 :: ([] : List BlockRef)) ++
            chainOf (x0 :: xh :: xtt) =
            .AGGREGATE ((xh :: xtt).getLastD x0) y1 ::
              .AGGREGATE x0 xh :: chainOf (xh :: xtt) := rfl
        rw [hq, runJoinLoop_miss root f _ y1 x0 xh _ hx0y1]
        have hq2 : (ComposeOutputOperation.AGGREGATE x0 xh ::
            chainOf (xh :: xtt)) ++
              [ComposeOutputOperation.AGGREGATE ((xh :: xtt).getLastD x0) y1] =
            chainOf ((x0 :: xh :: xtt) ++ [y1]) := by
          rw [chainOf_append_last x0 (xh :: xtt) y1]
          rfl
        rw [hq2]
        obtain ⟨h2, t2, heq, hlast, hlen2⟩ := append_single_eq_cons xtt y1
        have hq3 : (x0 :: xh :: xtt) ++ [y1] = x0 :: xh :: h2 :: t2 := by
          simp [← heq]
        rw [hq3]
        obtain ⟨f2, rfl⟩ : ∃ f2, f = f2 + 1 := ⟨f - 1, by omega⟩
        rw [chainOf_cons2, chainOf_cons2,
          runJoinLoop_join root f2 x0 xh h2 (chainOf (h2 :: t2))]
        match t2, hlast, hlen2, heq with
        | [], hlast, hlen2, heq =>
          rw [chainOf_one, List.nil_append, runJoinLoop_single]
          rw [getLastD_nil] at hlast ⊢
          rw [hlast]
        | c :: t3, hlast, hlen2, heq =>
          have hnd2 : ((x0 :: [h2]) ++ (c :: t3)).Nodup := by
            have hx : (x0 :: ([] ++ xh :: (xtt ++ [y1]))).Nodup := by
              simpa using hnd
            have h5 := nodup_remove_mid x0 [] xh (xtt ++ [y1]) hx
            simpa [heq] using h5
          have hslen : ([h2] : List BlockRef).length + 1 + t3.length = s := by
            simp only [List.length_cons, List.length_nil] at hlen hlen2 ⊢
            omega
          have hsfuel : 2 * s ≤ f2 := by omega
          have hih := ih x0 [h2] c t3 root f2 hnd2 hslen hsfuel
          rw [getLastD_one] at hih
          rw [getLastD_cons_eq] at hlast
          rw [hlast] at hih
          rw [getLastD_nil]
          exact hih
    | y2 :: ytl2 =>
      obtain ⟨f, rfl⟩ : ∃ f, fuel = f + 1 := ⟨fuel - 1, by omega⟩
      have hq : chainOf (xtl.getLastD x0 :: y1 :: y2 :: ytl2) ++ chainOf (x0 :: xtl) =
          .AGGREGATE (xtl.getLastD x0) y1 :: .AGGREGATE y1 y2 ::
            (chainOf (y2 :: ytl2) ++ chainOf (x0 :: xtl)) := rfl
      rw [hq, runJoinLoop_join root f _ y1 y2 _]
      have hq2 : (chainOf (y2 :: ytl2) ++ chainOf (x0 :: xtl)) ++
          [ComposeOutputOperation.AGGREGATE (xtl.getLastD x0) y2] =
          chainOf (y2 :: ytl2) ++ chainOf ((x0 :: xtl) ++ [y2]) := by
        rw [List.append_assoc, chainOf_append_last x0 xtl y2]
      rw [hq2]
      obtain ⟨h2, t2, heq, hlast2, hlen2⟩ := append_single_eq_cons xtl y2
      have hq3 : (x0 :: xtl) ++ [y2] = x0 :: h2 :: t2 := by
        simp [← heq]
      rw [hq3]
      match ytl2 with
      | [] =>
        have hnd2 : ((x0 :: ([] : List BlockRef)) ++ (h2 :: t2)).Nodup := by
          have hx : (x0 :: (xtl ++ y1 :: [y2])).Nodup := by simpa using hnd
          have h5 := nodup_remove_mid x0 xtl y1 [y2] hx
          simpa [heq] using h5
        have hslen : ([] : List BlockRef).length + 1 + t2.length = s := by
          simp only [List.length_nil, List.length_cons] at hlen hlen2 ⊢
          omega
        have hsfuel : 2 * s ≤ f := by omega
        have hih := ih x0 [] h2 t2 root f hnd2 hslen hsfuel
        rw [getLastD_nil] at hih
        rw [hlast2] at hih
        rw [chainOf_one] at hih
        rw [List.append_nil] at hih
        rw [chainOf_one, List.nil_append, getLastD_one]
        exact hih
      | y3 :: ytl3 =>
        have hnd2 : ((x0 :: h2 :: t2) ++ (y3 :: ytl3)).Nodup := by
          have hx : (x0 :: (xtl ++ y1 :: (y2 :: y3 :: ytl3))).Nodup := by
            simpa using hnd
          have h5 := nodup_remove_mid x0 xtl y1 (y2 :: y3 :: ytl3) hx
          have heq2 : (x0 :: h2 :: t2) ++ (y3 :: ytl3) =
              x0 :: (xtl ++ (y2 :: y3 :: ytl3)) := by
            simp [← heq]
          rw [heq2]
          exact h5
        have hslen : (h2 :: t2).length + 1 + ytl3.length = s := by
          simp only [List.length_cons] at hlen hlen2 ⊢
          omega
        have hsfuel : 2 * s ≤ f := by omega
        have hih := ih x0 (h2 :: t2) y3 ytl3 root f hnd2 hslen hsfuel
        rw [getLastD_cons_eq] at hih
        rw [hlast2] at hih
        rw [hih, getLastD_cons_eq, getLastD_cons_eq]

/-- C2: for every list of N contiguous AGGREGATE segments (N at least 1,
odd counts included) seeded into the FIFO queue in chain order — formalized
as the chain over pairwise-distinct cut boundaries `c0 :: c1 :: rest` — the
reduction loop terminates (within 2N iterations) with exactly one item
spanning from the first segment's op_head to the last segment's op_tail,
and that item is passed to FINISH. -/
theorem claim_C2_fifo_reduction (root : Digest) (prep : ComposeOutputOperation)
    (c0 c1 : BlockRef) (rest : List BlockRef)
    (hnd : (c0 :: c1 :: rest).Nodup) :
    runJoinLoop root (2 * (rest.length + 1)) (chainOf (c0 :: c1 :: rest)) =
      some (.AGGREGATE c0 (rest.getLastD c1)) ∧
    reduceAndFinish root prep (2 * (rest.length + 1)) (chainOf (c0 :: c1 :: rest)) =
      some (mkComposeInput root (.FINISH prep (.AGGREGATE c0 (rest.getLastD c1)))) := by
  have h := joinLoop_rotated (rest.length + 1) c0 [] c1 rest root
    (2 * (rest.length + 1)) (by simpa using hnd)
    (by simp only [List.length_nil]; omega) (le_refl _)
  rw [getLastD_nil, chainOf_one, List.append_nil] at h
  exact ⟨h, by rw [reduceAndFinish, h]; rfl⟩

/-- Witness for C2 at three segments (odd count, exercising the dangling
push-back round). -/
theorem claim_C2_witness :
    runJoinLoop (.raw 0) (2 * (2 + 1))
      (chainOf [⟨0, .raw 0⟩, ⟨1, .raw 1⟩, ⟨2, .raw 2⟩, ⟨3, .raw 3⟩]) =
      some (.AGGREGATE ⟨0, .raw 0⟩ ⟨3, .raw 3⟩) := by
  have h := claim_C2_fifo_reduction (.raw 0) (.PREP (.raw 0) ⟨0, .raw 0⟩ ⟨1, .raw 1⟩)
    ⟨0, .raw 0⟩ ⟨1, .raw 1⟩ [⟨2, .raw 2⟩, ⟨3, .raw 3⟩] (by decide)
  simpa using h.1

/-! ## Receipts and the instrumented pipeline (C6, C8)

The host escorts each composition step with an optional proving call
(`maybe_prove`).  A JOIN or FINISH is proved only when both children carry
receipts (lines 376-395 and 418-434 of `rollups.rs`); a LIFT only when its
derive receipt exists (lines 322-334).  The prover itself is opaque and
modelled as a function that may or may not return a receipt. -/

section Receipts

variable {R : Type}

/-- The receipt attached to a JOIN or FINISH node: the prover is invoked
only when both children carry receipts; otherwise no proof is attempted and
the receipt is absent. -/
def combineReceipts (prover : ComposeInput → Option R) (inp : ComposeInput) :
    Option R → Option R → Option R
  | some _, some _ => prover inp
  | _, _ => none

/-- The receipt attached to a LIFT node: proved only when the derive step
carried a receipt. -/
def liftReceipt (prover : ComposeInput → Option R) (inp : ComposeInput) :
    Option R → Option R
  | some _ => prover inp
  | none => none

/-- The faithful join loop over (output, receipt) pairs, emitting the JOIN
compose inputs it constructs alongside the final queue item. -/
def joinLoopF (prover : ComposeInput → Option R) (root : Digest) :
    Nat → List (ComposeOutputOperation × Option R) →
      List ComposeInput × Option (ComposeOutputOperation × Option R)
  | _, [] => ([], none)
  | _, [x] => ([], some x)
  | 0, _ :: _ :: _ => ([], none)
  | fuel + 1, (l, lr) :: (r, rr) :: rest =>
    match l, r with
    | .AGGREGATE lh lt, .AGGREGATE rh rt =>
      if lt = rh then
        let inp := mkComposeInput root (.JOIN (.AGGREGATE lh lt) (.AGGREGATE rh rt))
        match processOp inp with
        | .ok out =>
          let rec2 := joinLoopF prover root fuel
            (rest ++ [(out, combineReceipts prover inp lr rr)])
          (inp :: rec2.1, rec2.2)
        | .error _ => ([inp], none)
      else
        joinLoopF prover root fuel
          ((.AGGREGATE rh rt, rr) :: rest ++ [(.AGGREGATE lh lt, lr)])
    | _, _ => ([], none)

theorem joinLoopF_nil (prover : ComposeInput → Option R) (root : Digest)
    (fuel : Nat) : joinLoopF prover root fuel [] = ([], none) := by
  cases fuel <;> rfl

theorem joinLoopF_single (prover : ComposeInput → Option R) (root : Digest)
    (fuel : Nat) (x : ComposeOutputOperation × Option R) :
    joinLoopF prover root fuel [x] = ([], some x) := by
  cases fuel <;> rfl

theorem joinLoopF_join (prover : ComposeInput → Option R) (root : Digest)
    (fuel : Nat) (lh lt rt : BlockRef) (lr rr : Option R)
    (rest : List (ComposeOutputOperation × Option R)) :
    joinLoopF prover root (fuel + 1)
      ((.AGGREGATE lh lt, lr) :: (.AGGREGATE lt rt, rr) :: rest) =
      (mkComposeInput root (.JOIN (.AGGREGATE lh lt) (.AGGREGATE lt rt)) ::
        (joinLoopF prover root fuel (rest ++ [(.AGGREGATE lh rt,
          combineReceipts prover
            (mkComposeInput root (.JOIN (.AGGREGATE lh lt) (.AGGREGATE lt rt)))
            lr rr)])).1,
       (joinLoopF prover root fuel (rest ++ [(.AGGREGATE lh rt,
          combineReceipts prover
            (mkComposeInput root (.JOIN (.AGGREGATE lh lt) (.AGGREGATE lt rt)))
            lr rr)])).2) := by
  simp [joinLoopF, processOp, joinOp, mkComposeInput]

theorem joinLoopF_miss (prover : ComposeInput → Option R) (root : Digest)
    (fuel : Nat) (lh lt rh rt : BlockRef) (lr rr : Option R)
    (rest : List (ComposeOutputOperation × Option R)) (h : lt ≠ rh) :
    joinLoopF prover root (fuel + 1)
      ((.AGGREGATE lh lt, lr) :: (.AGGREGATE rh rt, rr) :: rest) =
      joinLoopF prover root fuel
        ((.AGGREGATE rh rt, rr) :: rest ++ [(.AGGREGATE lh lt, lr)]) := by
  simp [joinLoopF, h]

/-- Dropping the receipts: the instrumented loop computes exactly the same
composition outputs as the receipt-free loop. -/
theorem joinLoopF_proj (prover : ComposeInput → Option R) (root : Digest) :
    ∀ (fuel : Nat) (q : List (ComposeOutputOperation × Option R)),
      ((joinLoopF prover root fuel q).2).map Prod.fst =
        runJoinLoop root fuel (q.map Prod.fst) := by
  intro fuel
  induction fuel with
  | zero =>
    intro q
    match q with
    | [] => rfl
    | [x] => rfl
    | a :: b :: rest => rfl
  | succ fuel ih =>
    intro q
    match q with
    | [] => rfl
    | [x] => rfl
    | (l, lr) :: (r, rr) :: rest =>
      match l, r with
      | .PREP a b c, r => rfl
      | .AGGREGATE lh lt, .PREP a b c => rfl
      | .AGGREGATE lh lt, .AGGREGATE rh rt =>
        by_cases hlr : lt = rh
        · subst hlr
          rw [joinLoopF_join]
          simp only [List.map_cons]
          rw [runJoinLoop_join root fuel lh lt rt (rest.map Prod.fst)]
          rw [ih]
          simp [List.map_append]
        · rw [joinLoopF_miss prover root fuel lh lt rh rt lr rr rest hlr]
          simp only [List.map_cons]
          rw [runJoinLoop_miss root fuel lh lt rh rt (rest.map Prod.fst) hlr]
          rw [ih]
          simp [List.map_append]

/-- Every JOIN input emitted by the instrumented loop carries the loop's
anchor root. -/
theorem joinLoopF_root (prover : ComposeInput → Option R) (root : Digest) :
    ∀ (fuel : Nat) (q : List (ComposeOutputOperation × Option R)),
      ∀ i ∈ (joinLoopF prover root fuel q).1, i.eth_chain_merkle_root = root := by
  intro fuel
  induction fuel with
  | zero =>
    intro q i hi
    match q with
    | [] => simp [joinLoopF_nil] at hi
    | [x] => simp [joinLoopF_single] at hi
    | a :: b :: rest => simp [joinLoopF] at hi
  | succ fuel ih =>
    intro q i hi
    match q with
    | [] => simp [joinLoopF_nil] at hi
    | [x] => simp [joinLoopF_single] at hi
    | (l, lr) :: (r, rr) :: rest =>
      match l, r with
      | .PREP a b c, r => simp [joinLoopF] at hi
      | .AGGREGATE lh lt, .PREP a b c => simp [joinLoopF] at hi
      | .AGGREGATE lh lt, .AGGREGATE rh rt =>
        by_cases hlr : lt = rh
        · subst hlr
          rw [joinLoopF_join] at hi
          rcases List.mem_cons.mp hi with hi | hi
          · rw [hi]; rfl
          · exact ih _ i hi
        · rw [joinLoopF_miss prover root fuel lh lt rh rt lr rr rest hlr] at hi
          exact ih _ i hi

/-- C6: a JOIN or FINISH node's receipt is produced only when both children
carry receipts (and no proof is attempted when either is missing), while the
composition outputs themselves are computed identically with or without
receipts. -/
theorem claim_C6_receipt_gating (R : Type) :
    (∀ (prover : ComposeInput → Option R) (inp : ComposeInput) (lr rr : Option R),
      lr = none ∨ rr = none → combineReceipts prover inp lr rr = none) ∧
    (∀ (prover : ComposeInput → Option R) (inp : ComposeInput) (lr rr : Option R),
      (combineReceipts prover inp lr rr).isSome = true →
        lr.isSome = true ∧ rr.isSome = true) ∧
    (∀ (prover : ComposeInput → Option R) (root : Digest) (fuel : Nat)
      (q : List (ComposeOutputOperation × Option R)),
      ((joinLoopF prover root fuel q).2).map Prod.fst =
        runJoinLoop root fuel (q.map Prod.fst)) := by
  refine ⟨fun prover inp lr rr h => ?_, fun prover inp lr rr h => ?_,
    fun prover root fuel q => joinLoopF_proj prover root fuel q⟩
  · rcases h with h | h
    · subst h; cases rr <;> rfl
    · subst h; cases lr <;> rfl
  · cases lr with
    | none => simp [combineReceipts] at h
    | some a =>
      cases rr with
      | none => simp [combineReceipts] at h
      | some b => exact ⟨rfl, rfl⟩

/-- Witness for C6: with both child receipts present the prover may attach
one, and the gating theorem recovers both children's presence. -/
theorem claim_C6_witness :
    (some 0 : Option Nat).isSome = true ∧ (some 1 : Option Nat).isSome = true :=
  (claim_C6_receipt_gating Nat).2.1 (fun _ => some 7)
    (mkComposeInput (.raw 0) (.JOIN (.AGGREGATE ⟨0, .raw 0⟩ ⟨1, .raw 1⟩)
      (.AGGREGATE ⟨1, .raw 1⟩ ⟨2, .raw 2⟩)))
    (some 0) (some 1) (by decide)

/-! ## The full composition pipeline and its anchor root (C8) -/

/-- The LIFT stage (lines 303-337 of `rollups.rs`): for each derive output,
build a Merkle proof for its eth tail hash from the sibling map, construct
the LIFT input with the pipeline's anchor root, process it, and queue the
output with its (gated) receipt. -/
def liftStage (prover : ComposeInput → Option R) (root : Digest) (m : SibMap) :
    List (DeriveOutput × Option R) →
      Option (List ComposeInput × List (ComposeOutputOperation × Option R))
  | [] => some ([], [])
  | (d, dr) :: rest =>
    match MerkleProof.new m d.eth_tail.hash with
    | none => none
    | some p =>
      let inp := mkComposeInput root (.LIFT d p)
      match processOp inp with
      | .error _ => none
      | .ok out =>
        match liftStage prover root m rest with
        | none => none
        | some (inps, outs) =>
          some (inp :: inps, (out, liftReceipt prover inp dr) :: outs)

/-- The composition stage of `compose_derived_rollup_blocks` (lines
268-448): build the MMR over the collected eth chain, take its root as the
anchor, PREP, LIFT every derive output, reduce the join queue, and FINISH.
Returns all compose inputs constructed, with the finish output and its
receipt. -/
def composePipeline (prover : ComposeInput → Option R) (ethChain : List Header)
    (liftQueue : List (DeriveOutput × Option R)) :
    Option (List ComposeInput × (ComposeOutputOperation × Option R)) :=
  match buildMMR (ethChain.map Header.hash) with
  | (st, m0) =>
    match st.root m0 with
    | none => none
    | some (root, m) =>
      let prepInp := mkComposeInput root (.PREP ethChain none)
      match processOp prepInp with
      | .error _ => none
      | .ok prepOut =>
        match liftStage prover root m liftQueue with
        | none => none
        | some (liftInps, joinQueue) =>
          match joinLoopF prover root (2 * joinQueue.length) joinQueue with
          | (_, none) => none
          | (joinInps, some (agg, aggR)) =>
            let finInp := mkComposeInput root (.FINISH prepOut agg)
            match processOp finInp with
            | .error _ => none
            | .ok finOut =>
              some (prepInp :: (liftInps ++ joinInps ++ [finInp]),
                (finOut, combineReceipts prover finInp (prover prepInp) aggR))

theorem liftStage_root (prover : ComposeInput → Option R) (root : Digest)
    (m : SibMap) :
    ∀ (q : List (DeriveOutput × Option R)) (inps : List ComposeInput)
      (outs : List (ComposeOutputOperation × Option R)),
      liftStage prover root m q = some (inps, outs) →
      ∀ i ∈ inps, i.eth_chain_merkle_root = root := by
  intro q
  induction q with
  | nil =>
    intro inps outs h i hi
    simp only [liftStage, Option.some.injEq, Prod.mk.injEq] at h
    rw [← h.1] at hi
    exact absurd hi (List.not_mem_nil i)
  | cons d rest ih =>
    intro inps outs h i hi
    obtain ⟨dd, dr⟩ := d
    rw [liftStage] at h
    match hp : MerkleProof.new m dd.eth_tail.hash with
    | none => simp only [hp] at h; exact Option.noConfusion h
    | some p =>
      simp only [hp] at h
      match hpo : processOp (mkComposeInput root (.LIFT dd p)) with
      | .error e => simp only [hpo] at h; exact Option.noConfusion h
      | .ok out =>
        simp only [hpo] at h
        match hls : liftStage prover root m rest with
        | none => simp only [hls] at h; exact Option.noConfusion h
        | some (inps2, outs2) =>
          simp only [hls, Option.some.injEq, Prod.mk.injEq] at h
          rw [← h.1] at hi
          rcases List.mem_cons.mp hi with hi | hi
          · rw [hi]; rfl
          · exact ih inps2 outs2 hls i hi

theorem pipeline_inputs_root (prover : ComposeInput → Option R)
    (ethChain : List Header) (liftQueue : List (DeriveOutput × Option R))
    (inps : List ComposeInput) (res : ComposeOutputOperation × Option R)
    (h : composePipeline prover ethChain liftQueue = some (inps, res)) :
    ∀ i ∈ inps, rootOf (ethChain.map Header.hash) = some i.eth_chain_merkle_root := by
  intro i hi
  rcases hb : buildMMR (ethChain.map Header.hash) with ⟨st, m0⟩
  rw [composePipeline] at h
  simp only [hb] at h
  match hroot : st.root m0 with
  | none => simp only [hroot] at h; exact Option.noConfusion h
  | some (root, m) =>
    simp only [hroot] at h
    have hrootOf : rootOf (ethChain.map Header.hash) = some root := by
      rw [rootOf, hb]
      simp [hroot]
    match hpo : processOp (mkComposeInput root (.PREP ethChain none)) with
    | .error e => simp only [hpo] at h; exact Option.noConfusion h
    | .ok prepOut =>
      simp only [hpo] at h
      match hls : liftStage prover root m liftQueue with
      | none => simp only [hls] at h; exact Option.noConfusion h
      | some (liftInps, joinQueue) =>
        simp only [hls] at h
        match hjl : joinLoopF prover root (2 * joinQueue.length) joinQueue with
        | (joinInps, none) => simp only [hjl] at h; exact Option.noConfusion h
        | (joinInps, some (agg, aggR)) =>
          simp only [hjl] at h
          match hfo : processOp (mkComposeInput root (.FINISH prepOut agg)) with
          | .error e => simp only [hfo] at h; exact Option.noConfusion h
          | .ok finOut =>
            simp only [hfo, Option.some.injEq, Prod.mk.injEq] at h
            rw [← h.1] at hi
            rcases List.mem_cons.mp hi with hi | hi
            · rw [hi, hrootOf]; rfl
            · rcases List.mem_append.mp hi with hi | hi
              · rcases List.mem_append.mp hi with hi | hi
                · rw [hrootOf, liftStage_root prover root m liftQueue
                    liftInps joinQueue hls i hi]
                · have := joinLoopF_root prover root (2 * joinQueue.length)
                    joinQueue i (by rw [hjl]; exact hi)
                  rw [hrootOf, this]
              · have : i = mkComposeInput root (.FINISH prepOut agg) := by
                  simpa using hi
                rw [this, hrootOf]
                rfl

/-- C8: within one composition run, every ComposeInput the pipeline
constructs — PREP, every LIFT, every JOIN, and FINISH — carries the same
`eth_chain_merkle_root`, namely the MMR root of the full collected L1
chain. -/
theorem claim_C8_anchor_root (R : Type) (prover : ComposeInput → Option R)
    (ethChain : List Header) (liftQueue : List (DeriveOutput × Option R))
    (inp : ComposeInput)
    (hmem : inp ∈ ((composePipeline prover ethChain liftQueue).map Prod.fst).getD []) :
    rootOf (ethChain.map Header.hash) = some inp.eth_chain_merkle_root ∧
    (∀ inp2 ∈ ((composePipeline prover ethChain liftQueue).map Prod.fst).getD [],
      inp2.eth_chain_merkle_root = inp.eth_chain_merkle_root) := by
  match hp : composePipeline prover ethChain liftQueue with
  | none =>
    rw [hp] at hmem
    exact absurd hmem (List.not_mem_nil inp)
  | some (inps, res) =>
    rw [hp] at hmem
    simp at hmem
    have h1 := pipeline_inputs_root prover ethChain liftQueue inps res hp inp hmem
    refine ⟨h1, fun inp2 hmem2 => ?_⟩
    simp at hmem2
    have h2 := pipeline_inputs_root prover ethChain liftQueue inps res hp inp2 hmem2
    rw [h1] at h2
    exact (Option.some.injEq _ _).mp h2.symm

end Receipts

/-- Witness for C8: a concrete two-header chain with one lifted segment;
the PREP input constructed by the pipeline carries the chain's MMR root,
and every other constructed input carries the same root. -/
theorem claim_C8_witness :
    rootOf ([Header.mk 1 (.raw 1), Header.mk 2 (.raw 2)].map Header.hash) =
      some (mkComposeInput (.comb (.raw 1) (.raw 2))
        (.PREP [Header.mk 1 (.raw 1), Header.mk 2 (.raw 2)] none)).eth_chain_merkle_root ∧
    (∀ inp2 ∈ ((composePipeline (fun _ => (none : Option Nat))
        [Header.mk 1 (.raw 1), Header.mk 2 (.raw 2)]
        [(⟨⟨2, .raw 2⟩, ⟨10, .raw 10⟩, [⟨11, .raw 11⟩]⟩, none)]).map Prod.fst).getD [],
      inp2.eth_chain_merkle_root =
        (mkComposeInput (.comb (.raw 1) (.raw 2))
          (.PREP [Header.mk 1 (.raw 1), Header.mk 2 (.raw 2)] none)).eth_chain_merkle_root) :=
  claim_C8_anchor_root Nat (fun _ => none)
    [Header.mk 1 (.raw 1), Header.mk 2 (.raw 2)]
    [(⟨⟨2, .raw 2⟩, ⟨10, .raw 10⟩, [⟨11, .raw 11⟩]⟩, none)]
    (mkComposeInput (.comb (.raw 1) (.raw 2))
      (.PREP [Header.mk 1 (.raw 1), Header.mk 2 (.raw 2)] none))
    (by decide)

/-! ## MMR correctness (C7)

With the free digest algebra, the digest of a Merkle (sub)tree literally
mirrors the tree, so the committed root is analysed as a term: its leaf
frontier, the sibling-map entries its combines record, and subterm
occurrence. -/

/-- The ordered leaf frontier of a digest term (appended leaves are raw). -/
def leavesOf : Digest → List Digest
  | .raw n => [.raw n]
  | .comb l r => leavesOf l ++ leavesOf r

/-- The sibling-map entries recorded for every combine inside a term: for
`comb l r`, node `l`'s sibling is `r` on the right and node `r`'s sibling
is `l` on the left. -/
def edgesOf : Digest → SibMap
  | .raw _ => []
  | .comb l r => (l, r, false) :: (r, l, true) :: (edgesOf l ++ edgesOf r)

/-- The leaf sequence committed by a peak forest, leftmost peak last in the
list, so the frontier is rebuilt leftmost-first. -/
def forestLeaves : List (Nat × Digest) → List Digest
  | [] => []
  | p :: rest => forestLeaves rest ++ leavesOf p.2

/-- All combine entries of a peak forest. -/
def forestEdges : List (Nat × Digest) → SibMap
  | [] => []
  | p :: rest => edgesOf p.2 ++ forestEdges rest

/-- Term size of a digest. -/
def dsize : Digest → Nat
  | .raw _ => 1
  | .comb l r => 1 + dsize l + dsize r

/-- Subterm occurrence in a digest term. -/
inductive Occurs : Digest → Digest → Prop
  | refl (d : Digest) : Occurs d d
  | left {d l r : Digest} : Occurs d l → Occurs d (.comb l r)
  | right {d l r : Digest} : Occurs d r → Occurs d (.comb l r)

theorem leavesOf_ne_nil (d : Digest) : leavesOf d ≠ [] := by
  induction d with
  | raw n => simp [leavesOf]
  | comb l r ihl ihr => simp [leavesOf, ihl]

theorem dsize_pos (d : Digest) : 1 ≤ dsize d := by
  cases d with
  | raw n => simp [dsize]
  | comb l r => simp [dsize]; omega

theorem occurs_size {d t : Digest} (h : Occurs d t) : dsize d ≤ dsize t := by
  induction h with
  | refl => exact le_refl _
  | left h ih => simp [dsize]; omega
  | right h ih => simp [dsize]; omega

theorem mem_leaves_occurs {x t : Digest} (h : x ∈ leavesOf t) : Occurs x t := by
  induction t with
  | raw n =>
    simp [leavesOf] at h
    rw [h]
    exact .refl _
  | comb l r ihl ihr =>
    rcases List.mem_append.mp h with h | h
    · exact .left (ihl h)
    · exact .right (ihr h)

/-- Every edge key's frontier sits inside the tree's frontier, nonempty and
strictly shorter. -/
theorem edge_sub : ∀ (t k s : Digest) (b : Bool), (k, s, b) ∈ edgesOf t →
    (∀ x ∈ leavesOf k, x ∈ leavesOf t) ∧
    (leavesOf k).length < (leavesOf t).length := by
  intro t
  induction t with
  | raw n => intro k s b h; simp [edgesOf] at h
  | comb l r ihl ihr =>
    intro k s b h
    have hlpos : 1 ≤ (leavesOf l).length :=
      List.length_pos.mpr (leavesOf_ne_nil l)
    have hrpos : 1 ≤ (leavesOf r).length :=
      List.length_pos.mpr (leavesOf_ne_nil r)
    have hlen : (leavesOf (Digest.comb l r)).length =
        (leavesOf l).length + (leavesOf r).length := by
      simp [leavesOf]
    rcases List.mem_cons.mp h with h | h
    · injection h with h1 h2
      subst h1
      refine ⟨fun x hx => ?_, by omega⟩
      simp [leavesOf]
      exact Or.inl hx
    · rcases List.mem_cons.mp h with h | h
      · injection h with h1 h2
        subst h1
        refine ⟨fun x hx => ?_, by omega⟩
        simp [leavesOf]
        exact Or.inr hx
      · rcases List.mem_append.mp h with h | h
        · obtain ⟨hsub, hlt⟩ := ihl k s b h
          refine ⟨fun x hx => ?_, by omega⟩
          simp [leavesOf]
          exact Or.inl (hsub x hx)
        · obtain ⟨hsub, hlt⟩ := ihr k s b h
          refine ⟨fun x hx => ?_, by omega⟩
          simp [leavesOf]
          exact Or.inr (hsub x hx)

theorem edge_key_frontier_nonempty {t k s : Digest} {b : Bool}
    (h : (k, s, b) ∈ edgesOf t) : ∃ x, x ∈ leavesOf k ∧ x ∈ leavesOf t := by
  obtain ⟨hsub, _⟩ := edge_sub t k s b h
  obtain ⟨x, hx⟩ := List.exists_mem_of_ne_nil _ (leavesOf_ne_nil k)
  exact ⟨x, hx, hsub x hx⟩

/-- With a duplicate-free frontier, an edge key determines its entry. -/
theorem edge_det : ∀ (t : Digest), (leavesOf t).Nodup →
    ∀ (k s1 s2 : Digest) (b1 b2 : Bool),
      (k, s1, b1) ∈ edgesOf t → (k, s2, b2) ∈ edgesOf t →
      s1 = s2 ∧ b1 = b2 := by
  intro t
  induction t with
  | raw n => intro hnd k s1 s2 b1 b2 h1 h2; simp [edgesOf] at h1
  | comb l r ihl ihr =>
    intro hnd k s1 s2 b1 b2 h1 h2
    have hndl : (leavesOf l).Nodup := by
      rw [show leavesOf (Digest.comb l r) = leavesOf l ++ leavesOf r from rfl,
        List.nodup_append] at hnd
      exact hnd.1
    have hndr : (leavesOf r).Nodup := by
      rw [show leavesOf (Digest.comb l r) = leavesOf l ++ leavesOf r from rfl,
        List.nodup_append] at hnd
      exact hnd.2.1
    have hdisj : (leavesOf l).Disjoint (leavesOf r) := by
      rw [show leavesOf (Digest.comb l r) = leavesOf l ++ leavesOf r from rfl,
        List.nodup_append] at hnd
      exact hnd.2.2
    have hlr : l ≠ r := by
      intro hEq
      obtain ⟨x, hx⟩ := List.exists_mem_of_ne_nil _ (leavesOf_ne_nil l)
      exact hdisj hx (hEq ▸ hx)
    have keyl_not_l : ∀ s b, (l, s, b) ∈ edgesOf l → False := by
      intro s b hmem
      exact absurd (edge_sub l l s b hmem).2 (lt_irrefl _)
    have keyr_not_r : ∀ s b, (r, s, b) ∈ edgesOf r → False := by
      intro s b hmem
      exact absurd (edge_sub r r s b hmem).2 (lt_irrefl _)
    have keyl_not_r : ∀ s b, (l, s, b) ∈ edgesOf r → False := by
      intro s b hmem
      obtain ⟨hsub, _⟩ := edge_sub r l s b hmem
      obtain ⟨x, hx⟩ := List.exists_mem_of_ne_nil _ (leavesOf_ne_nil l)
      exact hdisj hx (hsub x hx)
    have keyr_not_l : ∀ s b, (r, s, b) ∈ edgesOf l → False := by
      intro s b hmem
      obtain ⟨hsub, _⟩ := edge_sub l r s b hmem
      obtain ⟨x, hx⟩ := List.exists_mem_of_ne_nil _ (leavesOf_ne_nil r)
      exact hdisj (hsub x hx) hx
    have key_not_both : ∀ k2 sa sb ba bb, (k2, sa, ba) ∈ edgesOf l →
        (k2, sb, bb) ∈ edgesOf r → False := by
      intro k2 sa sb ba bb hma hmb
      obtain ⟨hsuba, _⟩ := edge_sub l k2 sa ba hma
      obtain ⟨hsubb, _⟩ := edge_sub r k2 sb bb hmb
      obtain ⟨x, hx⟩ := List.exists_mem_of_ne_nil _ (leavesOf_ne_nil k2)
      exact hdisj (hsuba x hx) (hsubb x hx)
    have hsplit : ∀ (s : Digest) (b : Bool), (k, s, b) ∈ edgesOf (Digest.comb l r) →
        (k = l ∧ s = r ∧ b = false) ∨ (k = r ∧ s = l ∧ b = true) ∨
        (k, s, b) ∈ edgesOf l ∨ (k, s, b) ∈ edgesOf r := by
      intro s b h
      rcases List.mem_cons.mp h with h | h
      · injection h with ha hb
        injection hb with hb hc
        exact Or.inl ⟨ha, hb, hc⟩
      · rcases List.mem_cons.mp h with h | h
        · injection h with ha hb
          injection hb with hb hc
          exact Or.inr (Or.inl ⟨ha, hb, hc⟩)
        · rcases List.mem_append.mp h with h | h
          · exact Or.inr (Or.inr (Or.inl h))
          · exact Or.inr (Or.inr (Or.inr h))
    rcases hsplit s1 b1 h1 with hc1 | hc1 | hc1 | hc1 <;>
      rcases hsplit s2 b2 h2 with hc2 | hc2 | hc2 | hc2
    · exact ⟨hc1.2.1.trans hc2.2.1.symm, hc1.2.2.trans hc2.2.2.symm⟩
    · exact absurd (hc1.1.symm.trans hc2.1) hlr
    · rw [hc1.1] at hc2; exact (keyl_not_l _ _ hc2).elim
    · rw [hc1.1] at hc2; exact (keyl_not_r _ _ hc2).elim
    · exact absurd (hc2.1.symm.trans hc1.1) hlr
    · exact ⟨hc1.2.1.trans hc2.2.1.symm, hc1.2.2.trans hc2.2.2.symm⟩
    · rw [hc1.1] at hc2; exact (keyr_not_l _ _ hc2).elim
    · rw [hc1.1] at hc2; exact (keyr_not_r _ _ hc2).elim
    · rw [hc2.1] at hc1; exact (keyl_not_l _ _ hc1).elim
    · rw [hc2.1] at hc1; exact (keyr_not_l _ _ hc1).elim
    · exact ihl hndl k s1 s2 b1 b2 hc1 hc2
    · exact (key_not_both k s1 s2 b1 b2 hc1 hc2).elim
    · rw [hc2.1] at hc1; exact (keyl_not_r _ _ hc1).elim
    · rw [hc2.1] at hc1; exact (keyr_not_r _ _ hc1).elim
    · exact (key_not_both k s2 s1 b2 b1 hc2 hc1).elim
    · exact ihr hndr k s1 s2 b1 b2 hc1 hc2

theorem comb_frontier_parts {l r : Digest}
    (hnd : (leavesOf (Digest.comb l r)).Nodup) :
    (leavesOf l).Nodup ∧ (leavesOf r).Nodup ∧
    (leavesOf l).Disjoint (leavesOf r) := by
  rw [show leavesOf (Digest.comb l r) = leavesOf l ++ leavesOf r from rfl,
    List.nodup_append] at hnd
  exact hnd

theorem edges_length (t : Digest) : (edgesOf t).length + 1 = dsize t := by
  induction t with
  | raw n => rfl
  | comb l r ihl ihr =>
    simp only [edgesOf, dsize, List.length_cons, List.length_append]
    omega

theorem edges_nodup : ∀ (t : Digest), (leavesOf t).Nodup → (edgesOf t).Nodup := by
  intro t
  induction t with
  | raw n => intro h; simp [edgesOf]
  | comb l r ihl ihr =>
    intro hnd
    obtain ⟨hndl, hndr, hdisj⟩ := comb_frontier_parts hnd
    have keyl_not : ∀ s b, (l, s, b) ∈ edgesOf l ++ edgesOf r → False := by
      intro s b hmem
      rcases List.mem_append.mp hmem with hmem | hmem
      · exact absurd (edge_sub l l s b hmem).2 (lt_irrefl _)
      · obtain ⟨hsub, _⟩ := edge_sub r l s b hmem
        obtain ⟨x, hx⟩ := List.exists_mem_of_ne_nil _ (leavesOf_ne_nil l)
        exact hdisj hx (hsub x hx)
    have keyr_not : ∀ s b, (r, s, b) ∈ edgesOf l ++ edgesOf r → False := by
      intro s b hmem
      rcases List.mem_append.mp hmem with hmem | hmem
      · obtain ⟨hsub, _⟩ := edge_sub l r s b hmem
        obtain ⟨x, hx⟩ := List.exists_mem_of_ne_nil _ (leavesOf_ne_nil r)
        exact hdisj (hsub x hx) hx
      · exact absurd (edge_sub r r s b hmem).2 (lt_irrefl _)
    rw [show edgesOf (Digest.comb l r) =
      (l, r, false) :: (r, l, true) :: (edgesOf l ++ edgesOf r) from rfl]
    refine List.Nodup.cons ?_ (List.Nodup.cons ?_ ?_)
    · intro hmem
      rcases List.mem_cons.mp hmem with hmem | hmem
      · injection hmem with h1 h2
        injection h2 with h2 h3
        exact Bool.noConfusion h3
      · exact keyl_not r false hmem
    · exact fun hmem => keyr_not l true hmem
    · rw [List.nodup_append]
      refine ⟨ihl hndl, ihr hndr, ?_⟩
      intro e he1 he2
      obtain ⟨k, s, b⟩ := e
      obtain ⟨hsuba, _⟩ := edge_sub l k s b he1
      obtain ⟨hsubb, _⟩ := edge_sub r k s b he2
      obtain ⟨x, hx⟩ := List.exists_mem_of_ne_nil _ (leavesOf_ne_nil k)
      exact hdisj (hsuba x hx) (hsubb x hx)

/-- Every proper subterm has a parent edge, recorded in the term's edges,
whose parent occurs in the term and is strictly larger. -/
theorem parent_edge : ∀ {d t : Digest}, Occurs d t → d ≠ t →
    ∃ s b, (d, s, b) ∈ edgesOf t ∧
      Occurs (if b then Digest.comb s d else Digest.comb d s) t ∧
      dsize d < dsize (if b then Digest.comb s d else Digest.comb d s) := by
  intro d t hocc
  induction hocc with
  | refl => intro h; exact absurd rfl h
  | @left l r hocc2 ih =>
    intro _
    by_cases hdl : d = l
    · subst hdl
      refine ⟨r, false, List.mem_cons_self _ _, ?_, ?_⟩
      · show Occurs (Digest.comb d r) (Digest.comb d r)
        exact .refl _
      · show dsize d < dsize (Digest.comb d r)
        simp only [dsize]
        omega
    · obtain ⟨s, b, hmem, hocc3, hsize⟩ := ih hdl
      refine ⟨s, b, ?_, .left hocc3, hsize⟩
      rw [show edgesOf (Digest.comb l r) =
        (l, r, false) :: (r, l, true) :: (edgesOf l ++ edgesOf r) from rfl]
      exact List.mem_cons_of_mem _
        (List.mem_cons_of_mem _ (List.mem_append_left _ hmem))
  | @right l r hocc2 ih =>
    intro _
    by_cases hdr : d = r
    · subst hdr
      refine ⟨l, true, ?_, ?_, ?_⟩
      · rw [show edgesOf (Digest.comb l d) =
          (l, d, false) :: (d, l, true) :: (edgesOf l ++ edgesOf d) from rfl]
        exact List.mem_cons_of_mem _ (List.mem_cons_self _ _)
      · show Occurs (Digest.comb l d) (Digest.comb l d)
        exact .refl _
      · show dsize d < dsize (Digest.comb l d)
        simp only [dsize]
        omega
    · obtain ⟨s, b, hmem, hocc3, hsize⟩ := ih hdr
      refine ⟨s, b, ?_, .right hocc3, hsize⟩
      rw [show edgesOf (Digest.comb l r) =
        (l, r, false) :: (r, l, true) :: (edgesOf l ++ edgesOf r) from rfl]
      exact List.mem_cons_of_mem _
        (List.mem_cons_of_mem _ (List.mem_append_right _ hmem))

/-- With a map holding exactly the edges of `B`, the root has no entry. -/
theorem sibLookup_root_none {B : Digest} {m : SibMap}
    (hiff : ∀ e, e ∈ m ↔ e ∈ edgesOf B) : sibLookup m B = none := by
  unfold sibLookup
  cases hf : m.find? (fun e => decide (e.1 = B)) with
  | none => rfl
  | some e =>
    exfalso
    have hmem := List.mem_of_find?_eq_some hf
    have hkey : e.1 = B := by simpa using List.find?_some hf
    obtain ⟨k, s, b⟩ := e
    simp only at hkey
    subst hkey
    have hedge := (hiff _).mp hmem
    exact absurd (edge_sub k k s b hedge).2 (lt_irrefl _)

/-- With exact edges and a duplicate-free frontier, looking up an edge key
returns that edge. -/
theorem sibLookup_edge {B d s : Digest} {b : Bool} {m : SibMap}
    (hiff : ∀ e, e ∈ m ↔ e ∈ edgesOf B) (hnd : (leavesOf B).Nodup)
    (hedge : (d, s, b) ∈ edgesOf B) : sibLookup m d = some (s, b) := by
  unfold sibLookup
  cases hf : m.find? (fun e => decide (e.1 = d)) with
  | none =>
    exfalso
    have hex : ∃ e ∈ m, (fun e => decide (e.1 = d)) e = true :=
      ⟨(d, s, b), (hiff _).mpr hedge, by simp⟩
    have hsome := List.find?_isSome.mpr hex
    rw [hf] at hsome
    exact Bool.noConfusion hsome
  | some e =>
    have hmem := List.mem_of_find?_eq_some hf
    have hkey : e.1 = d := by simpa using List.find?_some hf
    obtain ⟨k, s2, b2⟩ := e
    simp only at hkey
    subst hkey
    have hedge2 : (k, s2, b2) ∈ edgesOf B := (hiff _).mp hmem
    obtain ⟨hs, hb⟩ := edge_det B hnd k s2 s b2 b hedge2 hedge
    simp [hs, hb]

theorem recompute_cons (d s : Digest) (b : Bool) (p : List (Digest × Bool)) :
    recomputeRoot d ((s, b) :: p) =
      recomputeRoot (if b then Digest.comb s d else Digest.comb d s) p := rfl

/-- Walking the sibling map from any node of the committed tree terminates
at the root and the collected path recomputes it. -/
theorem walk_correct (B : Digest) (m : SibMap)
    (hiff : ∀ e, e ∈ m ↔ e ∈ edgesOf B) (hnd : (leavesOf B).Nodup) :
    ∀ (fuel : Nat) (d : Digest), Occurs d B → dsize B < dsize d + fuel →
      ∃ p, proofWalk m fuel d = some p ∧ recomputeRoot d p = B := by
  intro fuel
  induction fuel with
  | zero =>
    intro d hocc hsize
    exact absurd (occurs_size hocc) (by omega)
  | succ fuel ih =>
    intro d hocc hsize
    by_cases hd : d = B
    · subst hd
      refine ⟨[], ?_, rfl⟩
      rw [proofWalk, sibLookup_root_none hiff]
    · obtain ⟨s, b, hedge, hocc2, hsize2⟩ := parent_edge hocc hd
      have hlk := sibLookup_edge hiff hnd hedge
      obtain ⟨p, hw, hr⟩ := ih (if b then Digest.comb s d else Digest.comb d s)
        hocc2 (by omega)
      refine ⟨(s, b) :: p, ?_, ?_⟩
      · rw [proofWalk, hlk]
        simp [hw]
      · rw [recompute_cons, hr]

/-- With a map holding exactly the committed tree's edges, proof generation
for any proper node succeeds and the proof verifies against the root. -/
theorem proof_new_correct {B : Digest} {m : SibMap}
    (hiff : ∀ e, e ∈ m ↔ e ∈ edgesOf B) (hnd : (leavesOf B).Nodup)
    {d : Digest} (hocc : Occurs d B) (hne : d ≠ B) :
    ∃ p, MerkleProof.new m d = some p ∧ p.verify B = true := by
  obtain ⟨s, b, hedge, _, _⟩ := parent_edge hocc hne
  have hlk := sibLookup_edge hiff hnd hedge
  have hsub : edgesOf B ⊆ m := fun e he => (hiff e).mpr he
  have hlen : (edgesOf B).length ≤ m.length :=
    (List.subperm_of_subset (edges_nodup B hnd) hsub).length_le
  have hfuel : dsize B < dsize d + (m.length + 1) := by
    have h1 := edges_length B
    have h2 := dsize_pos d
    omega
  obtain ⟨p, hw, hr⟩ := walk_correct B m hiff hnd (m.length + 1) d hocc hfuel
  refine ⟨⟨d, p⟩, ?_, ?_⟩
  · rw [MerkleProof.new, hlk]
    simp [hw]
  · rw [MerkleProof.verify]
    simp only at hr ⊢
    rw [hr]
    simp

/-- The invariant tying the host-built MMR state and sibling map to the
appended leaves: the forest commits exactly the appended leaf sequence, and
the map holds exactly the forest's combine entries. -/
def MMRInv (L : List Digest) (st : MerkleMountainRange) (m : SibMap) : Prop :=
  forestLeaves st.peaks = L ∧ (∀ e, e ∈ m ↔ e ∈ forestEdges st.peaks)

theorem pushPeak_spec : ∀ (P : List (Nat × Digest)) (hd : Nat × Digest) (m : SibMap),
    (∀ e, e ∈ m ↔ (e ∈ edgesOf hd.2 ∨ e ∈ forestEdges P)) →
    forestLeaves (pushPeak hd P m).1 = forestLeaves P ++ leavesOf hd.2 ∧
    (∀ e, e ∈ (pushPeak hd P m).2 ↔ e ∈ forestEdges (pushPeak hd P m).1) := by
  intro P
  induction P with
  | nil =>
    intro hd m hiff
    refine ⟨rfl, fun e => ?_⟩
    rw [show pushPeak hd [] m = ([hd], m) from rfl]
    rw [hiff e]
    rw [show forestEdges [hd] = edgesOf hd.2 ++ forestEdges [] from rfl]
    simp [forestEdges]
  | cons p2 rest ih =>
    intro hd m hiff
    obtain ⟨h2, l⟩ := p2
    rw [show pushPeak hd ((h2, l) :: rest) m =
      if hd.1 = h2 then
        pushPeak (h2 + 1, Digest.comb l hd.2) rest
          ((hd.2, l, true) :: (l, hd.2, false) :: m)
      else (hd :: (h2, l) :: rest, m) from rfl]
    split
    · next heq =>
      have hiff2 : ∀ e, e ∈ ((hd.2, l, true) :: (l, hd.2, false) :: m) ↔
          (e ∈ edgesOf (Digest.comb l hd.2) ∨ e ∈ forestEdges rest) := by
        intro e
        rw [List.mem_cons, List.mem_cons, hiff e]
        rw [show edgesOf (Digest.comb l hd.2) =
          (l, hd.2, false) :: (hd.2, l, true) :: (edgesOf l ++ edgesOf hd.2) from rfl]
        rw [show forestEdges ((h2, l) :: rest) = edgesOf l ++ forestEdges rest from rfl]
        simp only [List.mem_cons, List.mem_append]
        tauto
      have hspec := ih (h2 + 1, Digest.comb l hd.2)
        ((hd.2, l, true) :: (l, hd.2, false) :: m) hiff2
      refine ⟨?_, hspec.2⟩
      rw [hspec.1]
      rw [show forestLeaves ((h2, l) :: rest) = forestLeaves rest ++ leavesOf l from rfl]
      rw [show leavesOf (Digest.comb l hd.2) = leavesOf l ++ leavesOf hd.2 from rfl]
      rw [List.append_assoc]
    · next hne =>
      refine ⟨rfl, fun e => ?_⟩
      rw [hiff e]
      rw [show forestEdges (hd :: (h2, l) :: rest) =
        edgesOf hd.2 ++ forestEdges ((h2, l) :: rest) from rfl]
      simp [List.mem_append]

theorem append_leaf_inv (L : List Digest) (st : MerkleMountainRange) (m : SibMap)
    (n : Nat) (h : MMRInv L st m) :
    MMRInv (L ++ [.raw n])
      (st.append_leaf (.raw n) m).1 (st.append_leaf (.raw n) m).2 := by
  obtain ⟨hleaves, hedges⟩ := h
  have hiff : ∀ e, e ∈ m ↔
      (e ∈ edgesOf (Digest.raw n) ∨ e ∈ forestEdges st.peaks) := by
    intro e
    rw [hedges e]
    simp [edgesOf]
  have hspec := pushPeak_spec st.peaks (0, .raw n) m hiff
  exact ⟨by rw [show (st.append_leaf (.raw n) m).1.peaks =
      (pushPeak (0, .raw n) st.peaks m).1 from rfl, hspec.1, hleaves]; rfl,
    hspec.2⟩

theorem buildMMR_inv_aux : ∀ (ns : List Nat) (st : MerkleMountainRange)
    (m : SibMap) (L : List Digest), MMRInv L st m →
    MMRInv (L ++ ns.map .raw)
      ((ns.map .raw).foldl (fun sm leaf => sm.1.append_leaf leaf sm.2) (st, m)).1
      ((ns.map .raw).foldl (fun sm leaf => sm.1.append_leaf leaf sm.2) (st, m)).2 := by
  intro ns
  induction ns with
  | nil => intro st m L h; simpa using h
  | cons n rest ih =>
    intro st m L h
    have h2 := append_leaf_inv L st m n h
    have h3 := ih (st.append_leaf (.raw n) m).1 (st.append_leaf (.raw n) m).2
      (L ++ [.raw n]) h2
    simpa using h3

theorem buildMMR_inv (ns : List Nat) :
    MMRInv (ns.map .raw) (buildMMR (ns.map .raw)).1 (buildMMR (ns.map .raw)).2 := by
  have h0 : MMRInv [] ⟨[]⟩ [] := ⟨rfl, fun e => Iff.rfl⟩
  have h := buildMMR_inv_aux ns ⟨[]⟩ [] [] h0
  simpa [buildMMR] using h

theorem bagPeaks_spec : ∀ (P : List (Nat × Digest)) (acc : Digest) (m : SibMap),
    (∀ e, e ∈ m ↔ (e ∈ edgesOf acc ∨ e ∈ forestEdges P)) →
    leavesOf (bagPeaks acc P m).1 = forestLeaves P ++ leavesOf acc ∧
    (∀ e, e ∈ (bagPeaks acc P m).2 ↔ e ∈ edgesOf (bagPeaks acc P m).1) := by
  intro P
  induction P with
  | nil =>
    intro acc m hiff
    refine ⟨rfl, fun e => ?_⟩
    rw [show bagPeaks acc [] m = (acc, m) from rfl]
    rw [hiff e]
    simp [forestEdges]
  | cons p2 rest ih =>
    intro acc m hiff
    obtain ⟨h2, l⟩ := p2
    rw [show bagPeaks acc ((h2, l) :: rest) m =
      bagPeaks (Digest.comb l acc) rest ((acc, l, true) :: (l, acc, false) :: m)
      from rfl]
    have hiff2 : ∀ e, e ∈ ((acc, l, true) :: (l, acc, false) :: m) ↔
        (e ∈ edgesOf (Digest.comb l acc) ∨ e ∈ forestEdges rest) := by
      intro e
      rw [List.mem_cons, List.mem_cons, hiff e]
      rw [show edgesOf (Digest.comb l acc) =
        (l, acc, false) :: (acc, l, true) :: (edgesOf l ++ edgesOf acc) from rfl]
      rw [show forestEdges ((h2, l) :: rest) = edgesOf l ++ forestEdges rest from rfl]
      simp only [List.mem_cons, List.mem_append]
      tauto
    have hspec := ih (Digest.comb l acc) ((acc, l, true) :: (l, acc, false) :: m) hiff2
    refine ⟨?_, hspec.2⟩
    rw [hspec.1]
    rw [show forestLeaves ((h2, l) :: rest) = forestLeaves rest ++ leavesOf l from rfl]
    rw [show leavesOf (Digest.comb l acc) = leavesOf l ++ leavesOf acc from rfl]
    rw [List.append_assoc]

theorem root_spec (L : List Digest) (st : MerkleMountainRange) (m m2 : SibMap)
    (root : Digest) (hinv : MMRInv L st m)
    (hroot : st.root m = some (root, m2)) :
    leavesOf root = L ∧ (∀ e, e ∈ m2 ↔ e ∈ edgesOf root) := by
  obtain ⟨hleaves, hedges⟩ := hinv
  rw [MerkleMountainRange.root] at hroot
  match hp : st.peaks with
  | [] => simp only [hp] at hroot; exact Option.noConfusion hroot
  | (h0, t0) :: rest =>
    simp only [hp, Option.some.injEq] at hroot
    have hiff : ∀ e, e ∈ m ↔ (e ∈ edgesOf t0 ∨ e ∈ forestEdges rest) := by
      intro e
      rw [hedges e, hp]
      rw [show forestEdges ((h0, t0) :: rest) = edgesOf t0 ++ forestEdges rest from rfl]
      simp [List.mem_append]
    have hspec := bagPeaks_spec rest t0 m hiff
    rw [hp] at hleaves
    rw [show forestLeaves ((h0, t0) :: rest) =
      forestLeaves rest ++ leavesOf t0 from rfl] at hleaves
    constructor
    · rw [show root = (bagPeaks t0 rest m).1 from by rw [hroot]]
      rw [hspec.1, hleaves]
    · intro e
      rw [show m2 = (bagPeaks t0 rest m).2 from by rw [hroot],
        show root = (bagPeaks t0 rest m).1 from by rw [hroot]]
      exact hspec.2 e

/-- C7 (amended): the root after N appends is a function solely of the
first N leaves; appends only ever extend the committed leaf sequence; and a
membership proof generated from the sibling map at state N (after the root
computation at N) verifies against the root computed at N. -/
theorem claim_C7_mmr_append_stability :
    (∀ (ns more : List Nat) (N : Nat), N ≤ ns.length →
      rootOf (((ns ++ more).take N).map .raw) = rootOf ((ns.take N).map .raw)) ∧
    (∀ ns : List Nat,
      forestLeaves (buildMMR (ns.map .raw)).1.peaks = ns.map .raw) ∧
    (∀ (ns : List Nat) (root : Digest) (m2 : SibMap),
      ns.Nodup → 2 ≤ ns.length →
      (buildMMR (ns.map .raw)).1.root (buildMMR (ns.map .raw)).2 = some (root, m2) →
      ∀ (i : Nat) (hi : i < ns.length),
        ∃ p, MerkleProof.new m2 (.raw ns[i]) = some p ∧ p.verify root = true) := by
  refine ⟨fun ns more N hN => ?_, fun ns => (buildMMR_inv ns).1, ?_⟩
  · rw [List.take_append_of_le_length hN]
  · intro ns root m2 hnd hlen hroot i hi
    obtain ⟨hleaves, hedges⟩ := root_spec (ns.map .raw) (buildMMR (ns.map .raw)).1
      (buildMMR (ns.map .raw)).2 m2 root (buildMMR_inv ns) hroot
    have hndl : (leavesOf root).Nodup := by
      rw [hleaves]
      exact hnd.map (fun a b h => by injection h)
    have hocc : Occurs (.raw ns[i]) root := by
      apply mem_leaves_occurs
      rw [hleaves]
      exact List.mem_map_of_mem _ (ns.getElem_mem hi)
    have hne : (Digest.raw ns[i]) ≠ root := by
      intro hEq
      have h1 : (leavesOf root).length = ns.length := by rw [hleaves]; simp
      rw [← hEq] at h1
      simp [leavesOf] at h1
      omega
    exact proof_new_correct hedges hndl hocc hne

/-- Witness for C7: at two leaves, the proof generated for leaf 0 from the
post-root sibling map verifies against that root. -/
theorem claim_C7_witness :
    ∃ p, MerkleProof.new [(.raw 1, .raw 0, true), (.raw 0, .raw 1, false)]
        (.raw 0) = some p ∧
      p.verify (.comb (.raw 0) (.raw 1)) = true :=
  claim_C7_mmr_append_stability.2.2 [0, 1] (.comb (.raw 0) (.raw 1))
    [(.raw 1, .raw 0, true), (.raw 0, .raw 1, false)]
    (by decide) (by decide) (by decide) 0 (by decide)

/-- Counterexample for C7 as stated: the proof generated for leaf 0 after
two appends verifies against the root at N = 2 but not against the root at
N' = 3, so append-only proof stability across later appends fails. -/
theorem claim_C7_counterexample :
    ∃ (root2 root3 : Digest) (m2 : SibMap) (p : MerkleProof),
      (buildMMR [.raw 0, .raw 1]).1.root (buildMMR [.raw 0, .raw 1]).2 =
        some (root2, m2) ∧
      MerkleProof.new m2 (.raw 0) = some p ∧
      p.verify root2 = true ∧
      ((buildMMR [.raw 0, .raw 1, .raw 2]).1.root
        (buildMMR [.raw 0, .raw 1, .raw 2]).2).map Prod.fst = some root3 ∧
      p.verify root3 = false :=
  ⟨.comb (.raw 0) (.raw 1), .comb (.comb (.raw 0) (.raw 1)) (.raw 2),
    [(.raw 1, .raw 0, true), (.raw 0, .raw 1, false)],
    ⟨.raw 0, [(.raw 1, false)]⟩,
    by decide, by decide, by decide, by decide, by decide⟩

end ZethModel
